import Mathlib

/-!
# Verification of the htslib thread-pool queue specification

The repository ships the header `src/htslib/thread_pool.h`, which declares a
multi-queue thread pool with ordered result delivery and backpressure.  The
implementation file `thread_pool.c` is not part of `src/`, so the dynamic
behaviour of the operations is modelled from the specification (each such
definition carries a doc comment starting with `Modelled from the spec:`).
The header remains the authority for the data model (field types, in
particular the C `int` serial counters) and for the documented return codes.

Jobs and results are identified by their serial numbers: the work function
and its argument are opaque to the pool, and every property under study is
about serial bookkeeping and the counters `n_input`, `n_processing`,
`n_output`.
-/

set_option autoImplicit false

namespace ThreadPool

/--
Modelled from the spec: the state of one `t_pool_queue`
(header lines 105-127).  The input FIFO, the output list and the set of
jobs being processed are represented by the lists of the serial numbers of
the jobs they hold, so `n_input`, `n_output` and `n_processing` are the
lengths of these lists.  `qsize`, `next_serial`, `curr_serial`, `in_only`
and `shutdown` mirror the header fields of the same names.
-/
structure t_pool_queue where
  qsize : Nat
  next_serial : Nat
  curr_serial : Nat
  input : List Nat
  output : List Nat
  processing : List Nat
  in_only : Bool
  shutdown : Bool
deriving Repr, DecidableEq

/-- Number of jobs queued but not yet taken (header field `n_input`). -/
def t_pool_queue.n_input (q : t_pool_queue) : Nat := q.input.length

/-- Number of buffered results awaiting the consumer (header field `n_output`). -/
def t_pool_queue.n_output (q : t_pool_queue) : Nat := q.output.length

/-- Number of jobs taken but not yet finished (header field `n_processing`). -/
def t_pool_queue.n_processing (q : t_pool_queue) : Nat := q.processing.length

/-- The combined budget `n_input + n_processing + n_output` that dispatch
backpressure is measured against. -/
def qbudget (q : t_pool_queue) : Nat :=
  q.n_input + q.n_processing + q.n_output

/--
Modelled from the spec: the pool-global counters of `t_pool`
(header lines 136-163) that the claims mention: `njobs` (total jobs waiting
in all queues), `nwaiting` (workers blocked waiting for work) and the global
`shutdown` flag.
-/
structure t_pool where
  njobs : Nat
  nwaiting : Nat
  shutdown : Bool
deriving Repr, DecidableEq

/--
Modelled from the spec: `t_pool_queue_init p qsize in_only` creates a fresh
detached queue with empty buffers and both serial counters at zero
(header lines 231-241; the missing `thread_pool.c` holds the code).
-/
def t_pool_queue_init (qsize : Nat) (in_only : Bool) : t_pool_queue :=
  { qsize := qsize
    next_serial := 0
    curr_serial := 0
    input := []
    output := []
    processing := []
    in_only := in_only
    shutdown := false }

/--
Outcome of one dispatch attempt made under the pool mutex.  `ok` carries the
updated queue and pool.  `wouldBlock` is the distinct failure of the
non-blocking form; `blocked` records that the blocking form would wait on
`input_not_full_c` rather than return; `closed` is the failure against a
shut-down queue.
-/
inductive DispatchOutcome where
  | ok (q : t_pool_queue) (p : t_pool)
  | wouldBlock
  | blocked
  | closed
deriving Repr, DecidableEq

/--
Modelled from the spec: `t_pool_dispatch2` (header lines 186-187; the code
is in the missing `thread_pool.c`).  Dispatch against a shut-down queue
fails promptly with `closed`.  While `n_input + n_processing + n_output ≥
qsize` the blocking form waits (`blocked`) and the non-blocking form
returns the distinct `wouldBlock` failure.  Otherwise the job is assigned
`serial = next_serial`, `next_serial` is incremented, the job is appended
at the tail of the input FIFO (so `n_input` grows by one) and the pool
counter `njobs` is incremented.
-/
def t_pool_dispatch2 (p : t_pool) (q : t_pool_queue) (nonblock : Bool) :
    DispatchOutcome :=
  if q.shutdown then
    .closed
  else if q.qsize ≤ qbudget q then
    if nonblock then .wouldBlock else .blocked
  else
    .ok { q with input := q.input ++ [q.next_serial]
                 next_serial := q.next_serial + 1 }
        { p with njobs := p.njobs + 1 }

/--
Modelled from the spec: `t_pool_next_result` (header lines 212-222).  The
head of the output list is returned iff its serial equals `curr_serial`;
otherwise `none` is returned even when the list is non-empty.  On success
the head is unlinked (`n_output` drops by one) and `curr_serial` is
incremented.  The pair holds the delivered serial (if any) and the queue
after the call.
-/
def t_pool_next_result (q : t_pool_queue) : Option Nat × t_pool_queue :=
  match q.output with
  | [] => (none, q)
  | r :: rest =>
    if r = q.curr_serial then
      (some r, { q with output := rest, curr_serial := q.curr_serial + 1 })
    else
      (none, q)

/--
Modelled from the spec: ordered result insertion (spec section 4.2).  A
finished job's serial is inserted into the output list so that the list
stays sorted ascending by serial.
-/
def insert_result (s : Nat) : List Nat → List Nat
  | [] => [s]
  | r :: rest => if s < r then s :: r :: rest else r :: insert_result s rest

/--
Modelled from the spec: the take half of the worker loop (spec section 4.1,
steps 3 and 5).  A worker may take from a queue only when `n_input > 0` and
(`in_only` or `n_output < qsize`); it unlinks the head job of the input
FIFO and moves it to processing.
-/
def worker_take (q : t_pool_queue) : Option t_pool_queue :=
  match q.input with
  | [] => none
  | j :: rest =>
    if q.in_only = true ∨ q.n_output < q.qsize then
      some { q with input := rest, processing := j :: q.processing }
    else
      none

/--
Modelled from the spec: the finish half of the worker loop (spec sections
4.1 step 6 and 4.2).  When the worker running the job with serial `s`
returns, the job leaves processing, and its result is inserted into the
output list in serial order, or discarded when `in_only`.
-/
def worker_finish (q : t_pool_queue) (s : Nat) : Option t_pool_queue :=
  if s ∈ q.processing then
    some { q with processing := q.processing.erase s
                  output := if q.in_only then q.output else insert_result s q.output }
  else
    none

/--
Observable event of one atomic transition on a queue, used to label the
step relation: a successful dispatch of the job with serial `s`, a worker
taking or finishing the job with serial `s`, a successful `next_result`
delivering serial `s`, or `t_pool_queue_shutdown`.
-/
inductive QEvent where
  | submit (s : Nat)
  | take (s : Nat)
  | finish (s : Nat)
  | deliver (s : Nat)
  | close
deriving Repr, DecidableEq

/--
Modelled from the spec: one atomic transition of a queue, performed under
the pool mutex.  Transitions are a successful (blocking or non-blocking)
dispatch, a worker taking the head input job, a worker finishing a job,
a successful `next_result` (the failing call leaves the state unchanged),
and `t_pool_queue_shutdown` setting the shutdown flag.
-/
inductive QStep : t_pool_queue → QEvent → t_pool_queue → Prop where
  | dispatch (p p' : t_pool) (q q' : t_pool_queue) :
      t_pool_dispatch2 p q false = .ok q' p' →
      QStep q (.submit q.next_serial) q'
  | take (q q' : t_pool_queue) (s : Nat) :
      q.input.head? = some s → worker_take q = some q' →
      QStep q (.take s) q'
  | finish (q q' : t_pool_queue) (s : Nat) :
      worker_finish q s = some q' →
      QStep q (.finish s) q'
  | deliver (q q' : t_pool_queue) (s : Nat) :
      t_pool_next_result q = (some s, q') →
      QStep q (.deliver s) q'
  | close (q : t_pool_queue) :
      QStep q .close { q with shutdown := true }

/--
A finite interleaving of queue transitions, recording the list of events in
order.  `QTrace q es q'` means state `q'` is reached from `q` by the
events `es`.
-/
inductive QTrace : t_pool_queue → List QEvent → t_pool_queue → Prop where
  | refl (q : t_pool_queue) : QTrace q [] q
  | step (q₁ q₂ q₃ : t_pool_queue) (e : QEvent) (es : List QEvent) :
      QStep q₁ e q₂ → QTrace q₂ es q₃ → QTrace q₁ (e :: es) q₃

/-- The serials delivered by the successful `next_result` calls of a trace,
in call order. -/
def delivered (es : List QEvent) : List Nat :=
  es.filterMap fun e =>
    match e with
    | .deliver s => some s
    | _ => none

/-- The serials assigned by the successful dispatches of a trace, in
submission order. -/
def submitted (es : List QEvent) : List Nat :=
  es.filterMap fun e =>
    match e with
    | .submit s => some s
    | _ => none

/-! ### Inversion lemmas for the operations -/

theorem dispatch2_ok_iff (p p' : t_pool) (q q' : t_pool_queue) (nb : Bool) :
    t_pool_dispatch2 p q nb = .ok q' p' ↔
      q.shutdown = false ∧ qbudget q < q.qsize ∧
      q' = { q with input := q.input ++ [q.next_serial]
                    next_serial := q.next_serial + 1 } ∧
      p' = { p with njobs := p.njobs + 1 } := by
  unfold t_pool_dispatch2
  split
  · next hs => simp [hs]
  · next hs =>
    split
    · next hfull =>
      have hnr : ¬ qbudget q < q.qsize := by omega
      cases nb <;> simp [hnr]
    · next hroom =>
      have hs' : q.shutdown = false := by
        revert hs; cases q.shutdown <;> simp
      simp only [DispatchOutcome.ok.injEq]
      constructor
      · rintro ⟨rfl, rfl⟩
        exact ⟨hs', by omega, rfl, rfl⟩
      · rintro ⟨-, -, rfl, rfl⟩
        exact ⟨rfl, rfl⟩

theorem worker_take_some_iff (q q' : t_pool_queue) :
    worker_take q = some q' ↔
      ∃ j rest, q.input = j :: rest ∧
        (q.in_only = true ∨ q.n_output < q.qsize) ∧
        q' = { q with input := rest, processing := j :: q.processing } := by
  constructor
  · intro h
    cases hi : q.input with
    | nil => simp [worker_take, hi] at h
    | cons j rest =>
      simp only [worker_take, hi] at h
      split at h
      · next hg =>
        injection h with h
        exact ⟨j, rest, rfl, hg, h.symm⟩
      · exact absurd h (by simp)
  · rintro ⟨j, rest, hi, hg, rfl⟩
    simp only [worker_take, hi]
    rw [if_pos hg]

theorem worker_finish_some_iff (q q' : t_pool_queue) (s : Nat) :
    worker_finish q s = some q' ↔
      s ∈ q.processing ∧
      q' = { q with processing := q.processing.erase s
                    output := if q.in_only then q.output
                              else insert_result s q.output } := by
  unfold worker_finish
  split
  · next hmem =>
    constructor
    · intro h
      injection h with h
      exact ⟨hmem, h.symm⟩
    · rintro ⟨-, rfl⟩
      rfl
  · next hmem =>
    constructor
    · intro h
      exact Option.noConfusion h
    · rintro ⟨hm, -⟩
      exact absurd hm hmem

theorem next_result_some_iff (q q' : t_pool_queue) (s : Nat) :
    t_pool_next_result q = (some s, q') ↔
      q.output.head? = some s ∧ s = q.curr_serial ∧
      q' = { q with output := q.output.tail
                    curr_serial := q.curr_serial + 1 } := by
  constructor
  · intro h
    cases ho : q.output with
    | nil => simp [t_pool_next_result, ho] at h
    | cons r rest =>
      simp only [t_pool_next_result, ho] at h
      split at h
      · next hr =>
        rw [Prod.mk.injEq] at h
        obtain ⟨h1, rfl⟩ := h
        injection h1 with h1
        subst h1
        subst hr
        simp [ho]
      · next hr =>
        rw [Prod.mk.injEq] at h
        exact absurd h.1 (by simp)
  · rintro ⟨hh, rfl, rfl⟩
    cases ho : q.output with
    | nil => rw [ho] at hh; exact absurd hh (by simp)
    | cons r rest =>
      rw [ho] at hh
      injection hh with hh
      simp only [t_pool_next_result, ho]
      rw [if_pos hh]
      simp [ho]
      exact hh

theorem insert_result_length (s : Nat) (l : List Nat) :
    (insert_result s l).length = l.length + 1 := by
  induction l with
  | nil => rfl
  | cons r rest ih =>
    simp only [insert_result]
    split <;> simp [ih]

/-! ### Frame and effect lemmas for single steps -/

theorem QStep.qsize_eq {q q' : t_pool_queue} {e : QEvent} (h : QStep q e q') :
    q'.qsize = q.qsize := by
  cases h with
  | dispatch p p' qa qb hd =>
    obtain ⟨-, -, rfl, -⟩ := (dispatch2_ok_iff p _ q _ false).mp hd
    rfl
  | take qa qb s hh ht =>
    obtain ⟨j, rest, -, -, rfl⟩ := (worker_take_some_iff q _).mp ht
    rfl
  | finish qa qb s hf =>
    obtain ⟨-, rfl⟩ := (worker_finish_some_iff q _ s).mp hf
    rfl
  | deliver qa qb s hd =>
    obtain ⟨-, -, rfl⟩ := (next_result_some_iff q _ s).mp hd
    rfl
  | close qa => rfl

theorem QStep.in_only_eq {q q' : t_pool_queue} {e : QEvent} (h : QStep q e q') :
    q'.in_only = q.in_only := by
  cases h with
  | dispatch p p' qa qb hd =>
    obtain ⟨-, -, rfl, -⟩ := (dispatch2_ok_iff p _ q _ false).mp hd
    rfl
  | take qa qb s hh ht =>
    obtain ⟨j, rest, -, -, rfl⟩ := (worker_take_some_iff q _).mp ht
    rfl
  | finish qa qb s hf =>
    obtain ⟨-, rfl⟩ := (worker_finish_some_iff q _ s).mp hf
    rfl
  | deliver qa qb s hd =>
    obtain ⟨-, -, rfl⟩ := (next_result_some_iff q _ s).mp hd
    rfl
  | close qa => rfl

theorem QStep.budget_le {q q' : t_pool_queue} {e : QEvent} (h : QStep q e q')
    (hb : qbudget q ≤ q.qsize) : qbudget q' ≤ q'.qsize := by
  rw [h.qsize_eq]
  cases h with
  | dispatch p p' qa qb hd =>
    obtain ⟨-, hroom, rfl, -⟩ := (dispatch2_ok_iff p _ q _ false).mp hd
    simp only [qbudget, t_pool_queue.n_input, t_pool_queue.n_output,
      t_pool_queue.n_processing, List.length_append, List.length_cons,
      List.length_nil] at *
    omega
  | take qa qb s hh ht =>
    obtain ⟨j, rest, hi, -, rfl⟩ := (worker_take_some_iff q _).mp ht
    simp only [qbudget, t_pool_queue.n_input, t_pool_queue.n_output,
      t_pool_queue.n_processing, hi, List.length_cons] at *
    omega
  | finish qa qb s hf =>
    obtain ⟨hmem, rfl⟩ := (worker_finish_some_iff q _ s).mp hf
    have he : (q.processing.erase s).length = q.processing.length - 1 :=
      List.length_erase_of_mem hmem
    have hp : 0 < q.processing.length := List.length_pos_of_mem hmem
    simp only [qbudget, t_pool_queue.n_input, t_pool_queue.n_output,
      t_pool_queue.n_processing, he] at *
    split
    · omega
    · rw [insert_result_length]
      omega
  | deliver qa qb s hd =>
    obtain ⟨hh, -, rfl⟩ := (next_result_some_iff q _ s).mp hd
    cases ho : q.output with
    | nil => rw [ho] at hh; exact absurd hh (by simp)
    | cons r rest =>
      simp only [qbudget, t_pool_queue.n_input, t_pool_queue.n_output,
        t_pool_queue.n_processing, ho, List.length_cons, List.tail_cons] at *
      omega
  | close qa =>
    exact hb

theorem QStep.deliver_serial {q q' : t_pool_queue} {s : Nat}
    (h : QStep q (.deliver s) q') :
    s = q.curr_serial ∧ q'.curr_serial = q.curr_serial + 1 := by
  cases h with
  | deliver qa qb sa hd =>
    obtain ⟨-, hs, rfl⟩ := (next_result_some_iff q _ s).mp hd
    exact ⟨hs, rfl⟩

theorem QStep.deliver_output_ne {q q' : t_pool_queue} {s : Nat}
    (h : QStep q (.deliver s) q') : q.output ≠ [] := by
  cases h with
  | deliver qa qb sa hd =>
    obtain ⟨hh, -, -⟩ := (next_result_some_iff q _ s).mp hd
    intro ho
    rw [ho] at hh
    exact absurd hh (by simp)

theorem QStep.curr_serial_eq {q q' : t_pool_queue} {e : QEvent} (h : QStep q e q')
    (hne : ∀ s, e ≠ .deliver s) : q'.curr_serial = q.curr_serial := by
  cases h with
  | dispatch p p' qa qb hd =>
    obtain ⟨-, -, rfl, -⟩ := (dispatch2_ok_iff p _ q _ false).mp hd
    rfl
  | take qa qb s hh ht =>
    obtain ⟨j, rest, -, -, rfl⟩ := (worker_take_some_iff q _).mp ht
    rfl
  | finish qa qb s hf =>
    obtain ⟨-, rfl⟩ := (worker_finish_some_iff q _ s).mp hf
    rfl
  | deliver qa qb sa hd =>
    exact absurd rfl (hne sa)
  | close qa => rfl

theorem QStep.submit_serial {q q' : t_pool_queue} {s : Nat}
    (h : QStep q (.submit s) q') :
    s = q.next_serial ∧ q'.next_serial = q.next_serial + 1 := by
  cases h with
  | dispatch p p' qa qb hd =>
    obtain ⟨-, -, rfl, -⟩ := (dispatch2_ok_iff p _ q _ false).mp hd
    exact ⟨rfl, rfl⟩

theorem QStep.next_serial_eq {q q' : t_pool_queue} {e : QEvent} (h : QStep q e q')
    (hne : ∀ s, e ≠ .submit s) : q'.next_serial = q.next_serial := by
  cases h with
  | dispatch p p' qa qb hd =>
    exact absurd rfl (hne q.next_serial)
  | take qa qb s hh ht =>
    obtain ⟨j, rest, -, -, rfl⟩ := (worker_take_some_iff q _).mp ht
    rfl
  | finish qa qb s hf =>
    obtain ⟨-, rfl⟩ := (worker_finish_some_iff q _ s).mp hf
    rfl
  | deliver qa qb sa hd =>
    obtain ⟨-, -, rfl⟩ := (next_result_some_iff q _ sa).mp hd
    rfl
  | close qa => rfl

theorem QStep.output_nil {q q' : t_pool_queue} {e : QEvent} (h : QStep q e q')
    (hio : q.in_only = true) (ho : q.output = []) : q'.output = [] := by
  cases h with
  | dispatch p p' qa qb hd =>
    obtain ⟨-, -, rfl, -⟩ := (dispatch2_ok_iff p _ q _ false).mp hd
    exact ho
  | take qa qb s hh ht =>
    obtain ⟨j, rest, -, -, rfl⟩ := (worker_take_some_iff q _).mp ht
    exact ho
  | finish qa qb s hf =>
    obtain ⟨-, rfl⟩ := (worker_finish_some_iff q _ s).mp hf
    simpa [hio] using ho
  | deliver qa qb sa hd =>
    obtain ⟨hh, -, -⟩ := (next_result_some_iff q _ sa).mp hd
    rw [ho] at hh
    exact absurd hh (by simp)
  | close qa => exact ho

/-! ### Trace-level lemmas -/

theorem QTrace.qsize_stable {q q' : t_pool_queue} {es : List QEvent}
    (h : QTrace q es q') : q'.qsize = q.qsize := by
  induction h with
  | refl q => rfl
  | step q₁ q₂ q₃ e es hs ht ih => rw [ih, hs.qsize_eq]

theorem QTrace.in_only_stable {q q' : t_pool_queue} {es : List QEvent}
    (h : QTrace q es q') : q'.in_only = q.in_only := by
  induction h with
  | refl q => rfl
  | step q₁ q₂ q₃ e es hs ht ih => rw [ih, hs.in_only_eq]

theorem QTrace.budget_invariant {q q' : t_pool_queue} {es : List QEvent}
    (h : QTrace q es q') (hb : qbudget q ≤ q.qsize) : qbudget q' ≤ q'.qsize := by
  induction h with
  | refl q => exact hb
  | step q₁ q₂ q₃ e es hs ht ih => exact ih (hs.budget_le hb)

theorem delivered_nil : delivered [] = [] := rfl

theorem delivered_cons (e : QEvent) (es : List QEvent) :
    delivered (e :: es) =
      (match e with | .deliver s => s :: delivered es | _ => delivered es) := by
  cases e <;> simp [delivered]

theorem submitted_cons (e : QEvent) (es : List QEvent) :
    submitted (e :: es) =
      (match e with | .submit s => s :: submitted es | _ => submitted es) := by
  cases e <;> simp [submitted]

/--
Core ordering lemma: along any trace the serials delivered by `next_result`
are exactly the contiguous block starting at the initial `curr_serial`, and
`curr_serial` advances by exactly the number of delivered results.
-/
theorem QTrace.delivered_range {q q' : t_pool_queue} {es : List QEvent}
    (h : QTrace q es q') :
    delivered es = List.range' q.curr_serial (delivered es).length ∧
    q'.curr_serial = q.curr_serial + (delivered es).length := by
  induction h with
  | refl q => simp [delivered]
  | step q₁ q₂ q₃ e es hs ht ih =>
    cases e with
    | deliver s =>
      obtain ⟨rfl, hc⟩ := hs.deliver_serial
      rw [delivered_cons]
      simp only
      obtain ⟨ih1, ih2⟩ := ih
      rw [hc] at ih1 ih2
      constructor
      · rw [List.length_cons, List.range'_succ]
        exact congrArg _ ih1
      · rw [List.length_cons]
        omega
    | submit s =>
      have hc : q₂.curr_serial = q₁.curr_serial := hs.curr_serial_eq (by intro t h; cases h)
      rw [delivered_cons]
      simp only
      rw [← hc]
      exact ih
    | take s =>
      have hc : q₂.curr_serial = q₁.curr_serial := hs.curr_serial_eq (by intro t h; cases h)
      rw [delivered_cons]
      simp only
      rw [← hc]
      exact ih
    | finish s =>
      have hc : q₂.curr_serial = q₁.curr_serial := hs.curr_serial_eq (by intro t h; cases h)
      rw [delivered_cons]
      simp only
      rw [← hc]
      exact ih
    | close =>
      have hc : q₂.curr_serial = q₁.curr_serial := hs.curr_serial_eq (by intro t h; cases h)
      rw [delivered_cons]
      simp only
      rw [← hc]
      exact ih

/--
Serial bookkeeping along a trace: `next_serial` advances by exactly the
number of successful dispatches, and each dispatched job receives the value
of `next_serial` at its submission.
-/
theorem QTrace.submitted_range {q q' : t_pool_queue} {es : List QEvent}
    (h : QTrace q es q') :
    submitted es = List.range' q.next_serial (submitted es).length ∧
    q'.next_serial = q.next_serial + (submitted es).length := by
  induction h with
  | refl q => simp [submitted]
  | step q₁ q₂ q₃ e es hs ht ih =>
    cases e with
    | submit s =>
      obtain ⟨rfl, hc⟩ := hs.submit_serial
      rw [submitted_cons]
      simp only
      obtain ⟨ih1, ih2⟩ := ih
      rw [hc] at ih1 ih2
      constructor
      · rw [List.length_cons, List.range'_succ]
        exact congrArg _ ih1
      · rw [List.length_cons]
        omega
    | deliver s =>
      have hc : q₂.next_serial = q₁.next_serial := hs.next_serial_eq (by intro t h; cases h)
      rw [submitted_cons]
      simp only
      rw [← hc]
      exact ih
    | take s =>
      have hc : q₂.next_serial = q₁.next_serial := hs.next_serial_eq (by intro t h; cases h)
      rw [submitted_cons]
      simp only
      rw [← hc]
      exact ih
    | finish s =>
      have hc : q₂.next_serial = q₁.next_serial := hs.next_serial_eq (by intro t h; cases h)
      rw [submitted_cons]
      simp only
      rw [← hc]
      exact ih
    | close =>
      have hc : q₂.next_serial = q₁.next_serial := hs.next_serial_eq (by intro t h; cases h)
      rw [submitted_cons]
      simp only
      rw [← hc]
      exact ih

/--
An `in_only` queue never accumulates output and never advances
`curr_serial`: its output list stays empty and no result is ever delivered.
-/
theorem QTrace.in_only_frame {q q' : t_pool_queue} {es : List QEvent}
    (h : QTrace q es q') (hio : q.in_only = true) (ho : q.output = []) :
    q'.output = [] ∧ q'.curr_serial = q.curr_serial ∧ delivered es = [] := by
  induction h with
  | refl q => exact ⟨ho, rfl, rfl⟩
  | step q₁ q₂ q₃ e es hs ht ih =>
    have hio₂ : q₂.in_only = true := by rw [hs.in_only_eq]; exact hio
    have ho₂ : q₂.output = [] := hs.output_nil hio ho
    obtain ⟨o3, c3, d3⟩ := ih hio₂ ho₂
    cases e with
    | deliver s => exact absurd ho (hs.deliver_output_ne)
    | submit s =>
      have hc : q₂.curr_serial = q₁.curr_serial := hs.curr_serial_eq (by intro t h; cases h)
      rw [delivered_cons]
      exact ⟨o3, by omega, d3⟩
    | take s =>
      have hc : q₂.curr_serial = q₁.curr_serial := hs.curr_serial_eq (by intro t h; cases h)
      rw [delivered_cons]
      exact ⟨o3, by omega, d3⟩
    | finish s =>
      have hc : q₂.curr_serial = q₁.curr_serial := hs.curr_serial_eq (by intro t h; cases h)
      rw [delivered_cons]
      exact ⟨o3, by omega, d3⟩
    | close =>
      have hc : q₂.curr_serial = q₁.curr_serial := hs.curr_serial_eq (by intro t h; cases h)
      rw [delivered_cons]
      exact ⟨o3, by omega, d3⟩

/-! ### Flush -/

/-- The quiescence predicate flush waits for: no job queued and no job
executing (`n_input == 0 and n_processing == 0`). -/
def flush_done (q : t_pool_queue) : Bool :=
  q.n_input == 0 && q.n_processing == 0

/--
Modelled from the spec: `t_pool_queue_flush` (header lines 189-200; the
code is in the missing `thread_pool.c`).  Flush blocks on
`none_processing_c` until `n_input == 0 and n_processing == 0`: if the
queue is already quiescent it returns at once (empty trace of transitions
observed while it waits); otherwise it waits through queue transitions
until quiescence.  `t_pool_queue_flush q es q'` holds when a flush entered
in state `q` returns in state `q'` having waited through the events `es`.
-/
inductive t_pool_queue_flush : t_pool_queue → List QEvent → t_pool_queue → Prop where
  | done (q : t_pool_queue) :
      flush_done q = true → t_pool_queue_flush q [] q
  | wait (q₁ q₂ q₃ : t_pool_queue) (e : QEvent) (es : List QEvent) :
      flush_done q₁ = false → QStep q₁ e q₂ →
      t_pool_queue_flush q₂ es q₃ → t_pool_queue_flush q₁ (e :: es) q₃

theorem flush_done_iff (q : t_pool_queue) :
    flush_done q = true ↔ q.n_input = 0 ∧ q.n_processing = 0 := by
  simp [flush_done]

theorem flush_returns_quiescent {q q' : t_pool_queue} {es : List QEvent}
    (h : t_pool_queue_flush q es q') :
    q'.n_input = 0 ∧ q'.n_processing = 0 := by
  induction h with
  | done q hd => exact (flush_done_iff q).mp hd
  | wait q₁ q₂ q₃ e es hd hs hf ih => exact ih

/--
For an `in_only` queue, flush always terminates: workers can always take
(the output-capacity gate is skipped) and finish the remaining jobs, so a
flush derivation exists from every state.  Induction is on the measure
`2 * n_input + n_processing`, which every worker step decreases.
-/
theorem flush_total_in_only (n : Nat) :
    ∀ q : t_pool_queue, q.in_only = true → 2 * q.n_input + q.n_processing ≤ n →
    ∃ es q', t_pool_queue_flush q es q' := by
  induction n with
  | zero =>
    intro q hio hm
    refine ⟨[], q, .done q ?_⟩
    rw [flush_done_iff]
    unfold t_pool_queue.n_input t_pool_queue.n_processing at *
    omega
  | succ n ih =>
    intro q hio hm
    by_cases hd : flush_done q = true
    · exact ⟨[], q, .done q hd⟩
    · have hd' : flush_done q = false := by
        revert hd; cases flush_done q <;> simp
      cases hi : q.input with
      | cons j rest =>
        have ht : worker_take q =
            some { q with input := rest, processing := j :: q.processing } := by
          rw [worker_take_some_iff]
          exact ⟨j, rest, hi, Or.inl hio, rfl⟩
        have hstep : QStep q (.take j)
            { q with input := rest, processing := j :: q.processing } :=
          QStep.take q _ j (by rw [hi]; rfl) ht
        have hio₂ : ({ q with input := rest, processing := j :: q.processing } :
            t_pool_queue).in_only = true := hio
        have hm' : 2 * rest.length + (j :: q.processing).length ≤ n := by
          have : q.input.length = rest.length + 1 := by rw [hi]; rfl
          unfold t_pool_queue.n_input t_pool_queue.n_processing at hm
          simp only [List.length_cons]
          omega
        obtain ⟨es, q', hf⟩ :=
          ih { q with input := rest, processing := j :: q.processing } hio₂ hm'
        exact ⟨.take j :: es, q', .wait q _ q' (.take j) es hd' hstep hf⟩
      | nil =>
        cases hp : q.processing with
        | nil =>
          exfalso
          rw [flush_done_iff] at hd
          exact hd ⟨by simp [t_pool_queue.n_input, hi],
                    by simp [t_pool_queue.n_processing, hp]⟩
        | cons s rest =>
          have hfin : worker_finish q s =
              some { q with processing := q.processing.erase s
                            output := if q.in_only then q.output
                                      else insert_result s q.output } := by
            rw [worker_finish_some_iff]
            exact ⟨by rw [hp]; exact List.mem_cons_self s rest, rfl⟩
          have hstep : QStep q (.finish s) _ := QStep.finish q _ s hfin
          have hm' : 2 * q.input.length + (q.processing.erase s).length ≤ n := by
            have he : (q.processing.erase s).length = q.processing.length - 1 :=
              List.length_erase_of_mem (by rw [hp]; exact List.mem_cons_self s rest)
            have hpl : q.processing.length = rest.length + 1 := by rw [hp]; rfl
            unfold t_pool_queue.n_input t_pool_queue.n_processing at hm
            omega
          have hio₂ : ({ q with
              processing := q.processing.erase s,
              output := if q.in_only then q.output
                        else insert_result s q.output } :
              t_pool_queue).in_only = true := hio
          obtain ⟨es, q', hf⟩ :=
            ih { q with
                 processing := q.processing.erase s,
                 output := if q.in_only then q.output
                           else insert_result s q.output } hio₂ hm'
          exact ⟨.finish s :: es, q', .wait q _ q' (.finish s) es hd' hstep hf⟩

/-! ### Introspection (header lines 257-271) -/

/--
Modelled from the spec: `t_pool_queue_len` returns the number of completed
jobs buffered on the output side, i.e. `n_output` (header lines 263-266).
-/
def t_pool_queue_len (q : t_pool_queue) : Nat :=
  q.n_output

/--
Modelled from the spec: `t_pool_queue_sz` returns the number of completed
jobs plus the number queued up to run, including the jobs currently
executing: `n_output + n_input + n_processing` (header lines 268-271).
-/
def t_pool_queue_sz (q : t_pool_queue) : Nat :=
  q.n_output + q.n_input + q.n_processing

/--
Modelled from the spec: `t_pool_queue_empty` is true when there are no
items on the finished (output) queue and also none still pending, neither
queued on the input side nor being processed (header lines 257-261).
-/
def t_pool_queue_empty (q : t_pool_queue) : Bool :=
  q.output.isEmpty && q.input.isEmpty && q.processing.isEmpty

/-! ### The C `int` serial counters (header lines 70, 78, 112-113) -/

/--
Two's-complement value of a C 32-bit `int` whose stored bit pattern is the
count `n` reduced modulo `2^32`: the serial fields of `t_pool_job`,
`t_res` and `t_pool_queue` are declared `int` in the header and are
incremented once per submission.  `serial_stored n` is the value read back
from such a counter after `n` increments from zero, assuming the usual
wrap-around on overflow.
-/
def serial_stored (n : Nat) : Int :=
  if n % 2 ^ 32 < 2 ^ 31 then ((n % 2 ^ 32 : Nat) : Int)
  else ((n % 2 ^ 32 : Nat) : Int) - 2 ^ 32

/-! ### The public return codes of dispatch (header lines 174-187) -/

/--
The `int` return code of `t_pool_dispatch` / `t_pool_dispatch2` as
documented in the header: `Returns 0 on success, -1 on failure`.  Every
non-`ok` outcome, `wouldBlock` and `closed` alike, is collapsed to `-1`.
-/
def dispatch_retcode : DispatchOutcome → Int
  | .ok _ _ => 0
  | .wouldBlock => -1
  | .blocked => -1
  | .closed => -1

/-! ### Concrete example traces -/

/--
A trace with two workers finishing out of submission order: jobs 5 and 6
are dispatched, both taken, job 6 finishes before job 5, yet the results
are delivered as 5 then 6.
-/
theorem example_trace_a :
    QTrace ⟨2, 5, 5, [], [], [], false, false⟩
      [.submit 5, .submit 6, .take 5, .take 6, .finish 6, .finish 5,
       .deliver 5, .deliver 6]
      ⟨2, 7, 7, [], [], [], false, false⟩ := by
  refine QTrace.step _ ⟨2, 6, 5, [5], [], [], false, false⟩ _ _ _
    (QStep.dispatch ⟨0, 0, false⟩ ⟨1, 0, false⟩ _ _ (by decide)) ?_
  refine QTrace.step _ ⟨2, 7, 5, [5, 6], [], [], false, false⟩ _ _ _
    (QStep.dispatch ⟨0, 0, false⟩ ⟨1, 0, false⟩ _ _ (by decide)) ?_
  refine QTrace.step _ ⟨2, 7, 5, [6], [], [5], false, false⟩ _ _ _
    (QStep.take _ _ 5 (by decide) (by decide)) ?_
  refine QTrace.step _ ⟨2, 7, 5, [], [], [6, 5], false, false⟩ _ _ _
    (QStep.take _ _ 6 (by decide) (by decide)) ?_
  refine QTrace.step _ ⟨2, 7, 5, [], [6], [5], false, false⟩ _ _ _
    (QStep.finish _ _ 6 (by decide)) ?_
  refine QTrace.step _ ⟨2, 7, 5, [], [5, 6], [], false, false⟩ _ _ _
    (QStep.finish _ _ 5 (by decide)) ?_
  refine QTrace.step _ ⟨2, 7, 6, [], [6], [], false, false⟩ _ _ _
    (QStep.deliver _ _ 5 (by decide)) ?_
  refine QTrace.step _ ⟨2, 7, 7, [], [], [], false, false⟩ _ _ _
    (QStep.deliver _ _ 6 (by decide)) ?_
  exact QTrace.refl _

/-- A short trace from a freshly initialised queue of capacity 2: one job is
dispatched, taken, finished and its result consumed. -/
theorem example_trace_b :
    QTrace (t_pool_queue_init 2 false)
      [.submit 0, .take 0, .finish 0, .deliver 0]
      ⟨2, 1, 1, [], [], [], false, false⟩ := by
  refine QTrace.step _ ⟨2, 1, 0, [0], [], [], false, false⟩ _ _ _
    (QStep.dispatch ⟨0, 0, false⟩ ⟨1, 0, false⟩ _ _ (by decide)) ?_
  refine QTrace.step _ ⟨2, 1, 0, [], [], [0], false, false⟩ _ _ _
    (QStep.take _ _ 0 (by decide) (by decide)) ?_
  refine QTrace.step _ ⟨2, 1, 0, [], [0], [], false, false⟩ _ _ _
    (QStep.finish _ _ 0 (by decide)) ?_
  refine QTrace.step _ ⟨2, 1, 1, [], [], [], false, false⟩ _ _ _
    (QStep.deliver _ _ 0 (by decide)) ?_
  exact QTrace.refl _

/-- A trace on a freshly initialised `in_only` queue: one job is dispatched,
taken and finished; its return value is discarded. -/
theorem example_trace_c :
    QTrace (t_pool_queue_init 1 true)
      [.submit 0, .take 0, .finish 0]
      ⟨1, 1, 0, [], [], [], true, false⟩ := by
  refine QTrace.step _ ⟨1, 1, 0, [0], [], [], true, false⟩ _ _ _
    (QStep.dispatch ⟨0, 0, false⟩ ⟨1, 0, false⟩ _ _ (by decide)) ?_
  refine QTrace.step _ ⟨1, 1, 0, [], [], [0], true, false⟩ _ _ _
    (QStep.take _ _ 0 (by decide) (by decide)) ?_
  refine QTrace.step _ ⟨1, 1, 0, [], [], [], true, false⟩ _ _ _
    (QStep.finish _ _ 0 (by decide)) ?_
  exact QTrace.refl _

/-! ### The claims -/

/--
Claim C1: for every queue, the sequence of serial numbers carried by the
results returned by successive `next_result` / `next_result_wait` calls
along any interleaving of dispatches, worker takes/finishes and result
consumptions is contiguous and monotonically increasing starting at the
queue's initial `curr_serial` (`curr_serial_0, curr_serial_0 + 1, ...`),
regardless of which worker executed which job or the order in which workers
finished (the trace puts no constraint on the order of `finish` events).
-/
theorem next_result_serials_contiguous (q q' : t_pool_queue)
    (es : List QEvent) (h : QTrace q es q') :
    delivered es = List.range' q.curr_serial (delivered es).length :=
  h.delivered_range.1

/-- Witness for C1: on the out-of-order-completion trace starting at
`curr_serial = 5` the delivered serials are exactly `[5, 6]`. -/
theorem next_result_serials_contiguous_witness :
    delivered [.submit 5, .submit 6, .take 5, .take 6, .finish 6, .finish 5,
       .deliver 5, .deliver 6] = List.range' 5 2 :=
  next_result_serials_contiguous _ _ _ example_trace_a

/--
Claim C2: for every queue with capacity `qsize`, a blocking dispatch
returns only when the queue closes or the combined budget
`n_input + n_processing + n_output` has room (`< qsize`); a non-blocking
dispatch on an open queue returns the distinct would-block failure iff the
combined budget is full; and dispatch never blocks nor fails with
would-block when the budget has room and the queue is open.
-/
theorem dispatch_backpressure (p : t_pool) (q : t_pool_queue) :
    (t_pool_dispatch2 p q false = .blocked ↔
       q.shutdown = false ∧ q.qsize ≤ qbudget q) ∧
    (q.shutdown = false →
       (t_pool_dispatch2 p q true = .wouldBlock ↔ q.qsize ≤ qbudget q)) ∧
    (q.shutdown = false → qbudget q < q.qsize →
       ∃ q' p', t_pool_dispatch2 p q false = .ok q' p' ∧
                t_pool_dispatch2 p q true = .ok q' p') := by
  unfold t_pool_dispatch2
  refine ⟨?_, ?_, ?_⟩
  · split
    · next hs => simp [hs]
    · next hs =>
      have hs' : q.shutdown = false := by revert hs; cases q.shutdown <;> simp
      split
      · next hfull => simp [hs', hfull]
      · next hroom => simp [hs']; omega
  · intro hs
    rw [if_neg (by simp [hs])]
    split
    · next hfull => simp [hfull]
    · next hroom => simp; omega
  · intro hs hroom
    rw [if_neg (by simp [hs]), if_neg (by omega), if_neg (by simp [hs]),
      if_neg (by omega)]
    exact ⟨_, _, rfl, rfl⟩

/-- Witness for C2: an open queue of capacity 2 with one in-flight job
accepts both the blocking and the non-blocking dispatch. -/
theorem dispatch_backpressure_witness :
    ∃ q' p', t_pool_dispatch2 ⟨0, 0, false⟩ ⟨2, 6, 5, [5], [], [], false, false⟩
        false = .ok q' p' ∧
      t_pool_dispatch2 ⟨0, 0, false⟩ ⟨2, 6, 5, [5], [], [], false, false⟩
        true = .ok q' p' :=
  (dispatch_backpressure ⟨0, 0, false⟩ ⟨2, 6, 5, [5], [], [], false, false⟩).2.2
    (by decide) (by decide)

/--
Claim C3: in every state reachable from a fresh queue of capacity `n` by
any interleaving of dispatch, worker take/finish and result consumption,
`n_output + n_processing + n_input ≤ 2 * n`.  (The dispatch-side
backpressure in fact keeps the combined count at or below `n` itself, so
the stated bound of `2 * n` holds a fortiori.)
-/
theorem combined_budget_invariant (n : Nat) (io : Bool) (es : List QEvent)
    (q : t_pool_queue) (h : QTrace (t_pool_queue_init n io) es q) :
    q.n_output + q.n_processing + q.n_input ≤ 2 * n := by
  have h0 : qbudget (t_pool_queue_init n io) ≤ (t_pool_queue_init n io).qsize := by
    simp [qbudget, t_pool_queue_init, t_pool_queue.n_input,
      t_pool_queue.n_output, t_pool_queue.n_processing]
  have hb := h.budget_invariant h0
  have hq : q.qsize = n := h.qsize_stable
  unfold qbudget at hb
  omega

/-- Witness for C3: the end state of the capacity-2 example trace satisfies
the bound. -/
theorem combined_budget_invariant_witness :
    (⟨2, 1, 1, [], [], [], false, false⟩ : t_pool_queue).n_output +
      (⟨2, 1, 1, [], [], [], false, false⟩ : t_pool_queue).n_processing +
      (⟨2, 1, 1, [], [], [], false, false⟩ : t_pool_queue).n_input ≤ 2 * 2 :=
  combined_budget_invariant 2 false _ _ example_trace_b

/--
Claim C4: for every open, non-full queue, a successful dispatch assigns the
job the serial equal to the queue's current `next_serial` and increments
`next_serial` by one, appends the job at the tail of the input FIFO,
increments the queue's `n_input` by one and the pool's global `njobs` by
one; no other counter of the queue or the pool changes.
-/
theorem dispatch_success_updates (p p' : t_pool) (q q' : t_pool_queue)
    (nb : Bool) (h : t_pool_dispatch2 p q nb = .ok q' p') :
    q'.input = q.input ++ [q.next_serial] ∧
    q'.next_serial = q.next_serial + 1 ∧
    q'.n_input = q.n_input + 1 ∧
    p'.njobs = p.njobs + 1 ∧
    q'.curr_serial = q.curr_serial ∧
    q'.n_output = q.n_output ∧
    q'.n_processing = q.n_processing ∧
    q'.output = q.output ∧
    q'.processing = q.processing ∧
    q'.qsize = q.qsize ∧
    q'.in_only = q.in_only ∧
    q'.shutdown = q.shutdown ∧
    p'.nwaiting = p.nwaiting ∧
    p'.shutdown = p.shutdown := by
  obtain ⟨-, -, rfl, rfl⟩ := (dispatch2_ok_iff p p' q q' nb).mp h
  refine ⟨rfl, rfl, ?_, rfl, rfl, rfl, rfl, rfl, rfl, rfl, rfl, rfl, rfl, rfl⟩
  simp [t_pool_queue.n_input]

/-- Witness for C4: dispatching to an open queue of capacity 2 holding one
input job with `next_serial = 6`. -/
theorem dispatch_success_updates_witness :
    (⟨2, 7, 5, [5, 6], [], [], false, false⟩ : t_pool_queue).input =
        (⟨2, 6, 5, [5], [], [], false, false⟩ : t_pool_queue).input ++ [6] ∧
      (7 : Nat) = 6 + 1 ∧
      (⟨2, 7, 5, [5, 6], [], [], false, false⟩ : t_pool_queue).n_input =
        (⟨2, 6, 5, [5], [], [], false, false⟩ : t_pool_queue).n_input + 1 ∧
      (4 : Nat) = 3 + 1 ∧
      (5 : Nat) = 5 ∧
      (⟨2, 7, 5, [5, 6], [], [], false, false⟩ : t_pool_queue).n_output =
        (⟨2, 6, 5, [5], [], [], false, false⟩ : t_pool_queue).n_output ∧
      (⟨2, 7, 5, [5, 6], [], [], false, false⟩ : t_pool_queue).n_processing =
        (⟨2, 6, 5, [5], [], [], false, false⟩ : t_pool_queue).n_processing ∧
      ([] : List Nat) = [] ∧
      ([] : List Nat) = [] ∧
      (2 : Nat) = 2 ∧
      (false : Bool) = false ∧
      (false : Bool) = false ∧
      (9 : Nat) = 9 ∧
      (true : Bool) = true :=
  dispatch_success_updates ⟨3, 9, true⟩ ⟨4, 9, true⟩
    ⟨2, 6, 5, [5], [], [], false, false⟩
    ⟨2, 7, 5, [5, 6], [], [], false, false⟩ false (by decide)

/--
Claim C5: `next_result` returns the head of the output list iff that
head's serial equals `curr_serial`; otherwise it returns none even when
the output list is non-empty.  On success it unlinks the head (so
`n_output` drops by one) and increments `curr_serial` by one; on failure
the queue is unchanged.
-/
theorem next_result_strict_order (q : t_pool_queue) :
    (∀ r rest, q.output = r :: rest →
       (r = q.curr_serial →
          t_pool_next_result q =
            (some r, { q with output := rest,
                              curr_serial := q.curr_serial + 1 })) ∧
       (r ≠ q.curr_serial → t_pool_next_result q = (none, q))) ∧
    (q.output = [] → t_pool_next_result q = (none, q)) ∧
    (∀ r q₂, t_pool_next_result q = (some r, q₂) →
       q₂.n_output + 1 = q.n_output ∧ q₂.curr_serial = q.curr_serial + 1) := by
  refine ⟨?_, ?_, ?_⟩
  · intro r rest ho
    constructor
    · intro hr
      simp only [t_pool_next_result, ho]
      rw [if_pos hr, hr]
    · intro hr
      simp only [t_pool_next_result, ho]
      rw [if_neg hr]
  · intro ho
    simp only [t_pool_next_result, ho]
  · intro r q₂ h
    obtain ⟨hh, -, rfl⟩ := (next_result_some_iff q _ r).mp h
    cases ho : q.output with
    | nil => rw [ho] at hh; exact absurd hh (by simp)
    | cons a rest =>
      simp [t_pool_queue.n_output, ho]

/-- Witness for C5: on output `[5, 6]` with `curr_serial = 5` the head is
released and `curr_serial` advances to 6. -/
theorem next_result_strict_order_witness :
    t_pool_next_result ⟨2, 7, 5, [], [5, 6], [], false, false⟩ =
      (some 5, ⟨2, 7, 6, [], [6], [], false, false⟩) :=
  ((next_result_strict_order ⟨2, 7, 5, [], [5, 6], [], false, false⟩).1
    5 [6] rfl).1 rfl

/--
Claim C6: flush called on an already-quiescent queue
(`n_input = 0` and `n_processing = 0`) returns immediately, having waited
through no transition at all; and whenever flush returns, the queue
satisfied `n_input = 0 ∧ n_processing = 0` at that moment.
-/
theorem flush_idempotent_quiescent (q q' : t_pool_queue) (es : List QEvent) :
    (q.n_input = 0 ∧ q.n_processing = 0 → t_pool_queue_flush q [] q) ∧
    (t_pool_queue_flush q es q' → q'.n_input = 0 ∧ q'.n_processing = 0) := by
  constructor
  · intro hq
    exact .done q ((flush_done_iff q).mpr hq)
  · exact flush_returns_quiescent

/-- Witness for C6: a quiescent queue with two undelivered results flushes
immediately and is quiescent on return. -/
theorem flush_idempotent_quiescent_witness :
    t_pool_queue_flush ⟨2, 3, 1, [], [1, 2], [], false, false⟩ []
      ⟨2, 3, 1, [], [1, 2], [], false, false⟩ ∧
    ((⟨2, 3, 1, [], [1, 2], [], false, false⟩ : t_pool_queue).n_input = 0 ∧
     (⟨2, 3, 1, [], [1, 2], [], false, false⟩ : t_pool_queue).n_processing = 0) := by
  have h := (flush_idempotent_quiescent ⟨2, 3, 1, [], [1, 2], [], false, false⟩
      ⟨2, 3, 1, [], [1, 2], [], false, false⟩ []).1 ⟨rfl, rfl⟩
  exact ⟨h, (flush_idempotent_quiescent ⟨2, 3, 1, [], [1, 2], [], false, false⟩
      ⟨2, 3, 1, [], [1, 2], [], false, false⟩ []).2 h⟩

/--
Claim C7: for every queue state, `queue_len` returns `n_output`,
`queue_sz` returns `n_output + n_input + n_processing` (including the jobs
currently executing), and `queue_empty` returns true exactly when that sum
is zero.
-/
theorem introspection_counters (q : t_pool_queue) :
    t_pool_queue_len q = q.n_output ∧
    t_pool_queue_sz q = q.n_output + q.n_input + q.n_processing ∧
    (t_pool_queue_empty q = true ↔
      q.n_output + q.n_input + q.n_processing = 0) := by
  refine ⟨rfl, rfl, ?_⟩
  simp [t_pool_queue_empty, t_pool_queue.n_output, t_pool_queue.n_input,
    t_pool_queue.n_processing, List.isEmpty_iff, List.length_eq_zero]

/--
Claim C8: for every queue created with `in_only = true`, executing any
number of submitted jobs leaves `n_output` equal to 0 and `curr_serial`
unchanged at 0, while `next_serial` equals the number of jobs submitted;
and flush still completes (a flush derivation exists from the reached
state).
-/
theorem in_only_discards (n : Nat) (es : List QEvent) (q' : t_pool_queue)
    (h : QTrace (t_pool_queue_init n true) es q') :
    q'.n_output = 0 ∧ q'.curr_serial = 0 ∧
    q'.next_serial = (submitted es).length ∧
    ∃ es₂ q₂, t_pool_queue_flush q' es₂ q₂ := by
  obtain ⟨ho, hc, -⟩ := h.in_only_frame rfl rfl
  have hns := h.submitted_range.2
  have hio' : q'.in_only = true := by rw [h.in_only_stable]; rfl
  refine ⟨by simp [t_pool_queue.n_output, ho], hc, ?_, ?_⟩
  · rw [hns]
    simp [t_pool_queue_init]
  · exact flush_total_in_only (2 * q'.n_input + q'.n_processing) q' hio' le_rfl

/-- Witness for C8: the `in_only` example trace submits one job, executes
it, and ends with no output, `curr_serial = 0` and `next_serial = 1`. -/
theorem in_only_discards_witness :
    (⟨1, 1, 0, [], [], [], true, false⟩ : t_pool_queue).n_output = 0 ∧
    (⟨1, 1, 0, [], [], [], true, false⟩ : t_pool_queue).curr_serial = 0 ∧
    (⟨1, 1, 0, [], [], [], true, false⟩ : t_pool_queue).next_serial =
      (submitted [.submit 0, .take 0, .finish 0]).length ∧
    ∃ es₂ q₂,
      t_pool_queue_flush ⟨1, 1, 0, [], [], [], true, false⟩ es₂ q₂ :=
  in_only_discards 1 _ _ example_trace_c

/--
Claim C9: the serial bookkeeping fields are C signed 32-bit `int`s
incremented once per submission (header lines 70, 78, 112-113), so the
stored counter is strictly increasing only while fewer than `2^31`
submissions have occurred; at the `2^31`-th increment the stored value
wraps into the negatives and the ordering keys are no longer increasing.
-/
theorem serial_int32_wraps :
    (∀ k : Nat, k + 1 < 2 ^ 31 → serial_stored k < serial_stored (k + 1)) ∧
    serial_stored (2 ^ 31 - 1) = 2 ^ 31 - 1 ∧
    serial_stored (2 ^ 31) = -(2 ^ 31) ∧
    serial_stored (2 ^ 31) < 0 ∧
    ¬ serial_stored (2 ^ 31 - 1) < serial_stored (2 ^ 31) ∧
    serial_stored (2 ^ 32) = 0 := by
  refine ⟨?_, by decide, by decide, by decide, by decide, by decide⟩
  intro k hk
  have h1 : k % 2 ^ 32 = k := Nat.mod_eq_of_lt (by omega)
  have h2 : (k + 1) % 2 ^ 32 = k + 1 := Nat.mod_eq_of_lt (by omega)
  simp only [serial_stored, h1, h2]
  rw [if_pos (by omega : k < 2 ^ 31), if_pos hk]
  exact_mod_cast Nat.lt_succ_self k

/-- Witness for C9: the fifth increment still increases the stored
serial. -/
theorem serial_int32_wraps_witness : serial_stored 5 < serial_stored 6 :=
  serial_int32_wraps.1 5 (by decide)

/--
Claim C10: `t_pool_dispatch` / `t_pool_dispatch2` return an `int` that is
0 on success and -1 on every failure (header lines 181-183), so by the
return value alone a caller cannot distinguish the would-block failure of
a non-blocking dispatch from a dispatch to a shut-down queue.
-/
theorem dispatch_retcode_collapses (p : t_pool) (q₁ q₂ : t_pool_queue)
    (h₁ : q₁.shutdown = true) (h₂ : q₂.shutdown = false)
    (hf : q₂.qsize ≤ qbudget q₂) :
    t_pool_dispatch2 p q₁ true = .closed ∧
    t_pool_dispatch2 p q₂ true = .wouldBlock ∧
    dispatch_retcode (t_pool_dispatch2 p q₁ true) = -1 ∧
    dispatch_retcode (t_pool_dispatch2 p q₂ true) = -1 ∧
    dispatch_retcode (t_pool_dispatch2 p q₁ true) =
      dispatch_retcode (t_pool_dispatch2 p q₂ true) ∧
    (∀ q' p', dispatch_retcode (.ok q' p') = 0) := by
  have hc : t_pool_dispatch2 p q₁ true = .closed := by
    unfold t_pool_dispatch2
    rw [if_pos h₁]
  have hw : t_pool_dispatch2 p q₂ true = .wouldBlock := by
    unfold t_pool_dispatch2
    rw [if_neg (by simp [h₂]), if_pos hf]
    rfl
  refine ⟨hc, hw, by rw [hc]; rfl, by rw [hw]; rfl, by rw [hc, hw]; rfl,
    fun _ _ => rfl⟩

/-- Witness for C10: a shut-down queue and a full open queue both yield
return code -1 from the non-blocking dispatch. -/
theorem dispatch_retcode_collapses_witness :
    t_pool_dispatch2 ⟨0, 0, false⟩ ⟨1, 0, 0, [], [], [], false, true⟩ true =
      .closed ∧
    t_pool_dispatch2 ⟨0, 0, false⟩ ⟨1, 1, 0, [0], [], [], false, false⟩ true =
      .wouldBlock ∧
    dispatch_retcode (t_pool_dispatch2 ⟨0, 0, false⟩
      ⟨1, 0, 0, [], [], [], false, true⟩ true) = -1 ∧
    dispatch_retcode (t_pool_dispatch2 ⟨0, 0, false⟩
      ⟨1, 1, 0, [0], [], [], false, false⟩ true) = -1 ∧
    dispatch_retcode (t_pool_dispatch2 ⟨0, 0, false⟩
        ⟨1, 0, 0, [], [], [], false, true⟩ true) =
      dispatch_retcode (t_pool_dispatch2 ⟨0, 0, false⟩
        ⟨1, 1, 0, [0], [], [], false, false⟩ true) ∧
    (∀ q' p', dispatch_retcode (.ok q' p') = 0) :=
  dispatch_retcode_collapses ⟨0, 0, false⟩ ⟨1, 0, 0, [], [], [], false, true⟩
    ⟨1, 1, 0, [0], [], [], false, false⟩ rfl rfl (by decide)

end ThreadPool
